import Mathlib

/-!
Verification of the yangform path exporter.

The development shallowly embeds the two components of the program:

* the recursive tree walker `Paths` from the `path` package, which turns a
  schema tree of typed nodes (`Entry`) into a flat list of path records
  (`Path`), and
* the text renderer and template helpers from the `export` command
  (`renderText`, `parseTemplateVars`, `resolveTemplateBody`).

Machine strings are Lean `String`s; Go's `strings.Split`, `strings.Join`,
`sort.Strings` and the `fmt` verb `%+q` are modelled by executable functions
below.  Terminal colour decoration is modelled explicitly: with colours
enabled each decorated fragment is wrapped in the ANSI bold/faint escape
sequences, with colours disabled the fragment is returned unchanged, exactly
as the `fatih/color` printers behave under `color.NoColor`.
-/

namespace Yangpath

/-! ## String helpers modelling the Go standard library -/

/-- Byte-wise "is `sep` a leading sequence of `l`" test, as used by
`strings.Split` when scanning for separator occurrences. -/
def lstartsWith : List Char → List Char → Bool
  | [], _ => true
  | _ :: _, [] => false
  | p :: ps, c :: cs => (p == c) && lstartsWith ps cs

/-- Core of Go's `strings.Split`: scan `l` left to right, emitting the
accumulated segment (held reversed in `cur`) each time `sep` occurs. -/
def splitL (sep : List Char) (l : List Char) (cur : List Char) : List (List Char) :=
  if h : sep ≠ [] ∧ lstartsWith sep l = true then
    cur.reverse :: splitL sep (l.drop sep.length) []
  else
    match l with
    | [] => [cur.reverse]
    | c :: cs => splitL sep cs (c :: cur)
termination_by l.length
decreasing_by
  · rw [List.length_drop]
    obtain ⟨hs, hpre⟩ := h
    cases sep with
    | nil => exact absurd rfl hs
    | cons a as =>
      cases l with
      | nil => simp [lstartsWith] at hpre
      | cons c cs => simp; omega
  · simp

/-- Go's `strings.Split sep s` (for the separators used by the program). -/
def goSplit (sep s : String) : List String :=
  if sep = "" then s.toList.map (fun c => String.singleton c)
  else (splitL sep.toList s.toList []).map List.asString

/-- List-of-characters version of `strings.Join`. -/
def goJoinL (sep : List Char) : List (List Char) → List Char
  | [] => []
  | [s] => s
  | s :: rest => s ++ sep ++ goJoinL sep rest

/-- Go's `strings.Join l sep`. -/
def goJoin (sep : String) : List String → String
  | [] => ""
  | [s] => s
  | s :: rest => s ++ sep ++ goJoin sep rest

/-- Lexicographic comparison of character lists by code point; on the ASCII
names occurring in YANG schemas this coincides with the byte order used by
Go's `sort.Strings`. -/
def leChars : List Char → List Char → Bool
  | [], _ => true
  | _ :: _, [] => false
  | a :: as, b :: bs => if a < b then true else if b < a then false else leChars as bs

/-- String comparison backing the model of `sort.Strings`. -/
def strLe (s t : String) : Bool := leChars s.toList t.toList

/-- Insertion step of the model of `sort.Strings`. -/
def insertStr (s : String) : List String → List String
  | [] => [s]
  | t :: ts => if strLe s t then s :: t :: ts else t :: insertStr s ts

/-- Model of Go's `sort.Strings`: sorts a list of strings ascending. -/
def sortStrings : List String → List String
  | [] => []
  | s :: ss => insertStr s (sortStrings ss)

/-- One hexadecimal digit, lower case, as produced by Go's quoting. -/
def hexDigit (n : Nat) : Char :=
  if n < 10 then Char.ofNat (48 + n) else Char.ofNat (97 + (n - 10))

/-- Quoting of one character as done by Go's `%+q` verb (ASCII-only output):
the common named escapes, escaped quote and backslash, printable ASCII
verbatim, and a `\u` escape otherwise. -/
def goQuoteChar (c : Char) : String :=
  if c = '"' then "\\\""
  else if c = '\\' then "\\\\"
  else if c = '\x07' then "\\a"
  else if c = '\x08' then "\\b"
  else if c = '\x0c' then "\\f"
  else if c = '\n' then "\\n"
  else if c = '\r' then "\\r"
  else if c = '\t' then "\\t"
  else if c = '\x0b' then "\\v"
  else if 0x20 ≤ c.toNat ∧ c.toNat ≤ 0x7e then String.singleton c
  else
    "\\u" ++ String.mk [hexDigit (c.toNat / 4096 % 16), hexDigit (c.toNat / 256 % 16),
      hexDigit (c.toNat / 16 % 16), hexDigit (c.toNat % 16)]

/-- Go's `%+q` applied to a single string: a double-quoted, ASCII-escaped
rendering. -/
def goQuote (s : String) : String :=
  "\"" ++ String.join (s.toList.map goQuoteChar) ++ "\""

/-- Go's `%+q` applied to a `[]string`: the elements are individually quoted,
space-separated and wrapped in square brackets, e.g. `["A" "B"]`. -/
def goQuoteSlice (names : List String) : String :=
  "[" ++ goJoin " " (names.map goQuote) ++ "]"

/-- Model of `color.New(color.Bold).Sprintf`: identity when colours are disabled,
otherwise the ANSI bold wrapping. -/
def keyColorSprint (noColor : Bool) (s : String) : String :=
  if noColor then s else "\x1b[1m" ++ s ++ "\x1b[0m"

/-- Model of `color.New(color.Faint).Sprint`: identity when colours are disabled,
otherwise the ANSI faint wrapping. -/
def typeColorSprint (noColor : Bool) (s : String) : String :=
  if noColor then s else "\x1b[2m" ++ s ++ "\x1b[0m"

/-! ## Data model (the parts of `goyang`'s entry tree read by the program) -/

/-- The `yang.TriState` flag: the tri-valued config statement of a schema node. -/
inductive TriState where
  | TSUnset
  | TSTrue
  | TSFalse
deriving DecidableEq, Repr

/-- The resolved type kinds `yang.TypeKind` distinguished by the walker;
every kind the walker does not inspect specially is collapsed into
`Yother`. -/
inductive YKind where
  | Yother
  | Yleafref
  | Yenum
  | Yunion
deriving DecidableEq, Repr

/-- The fields of the resolved `yang.YangType` (reached as `e.Type`) that the
walker reads: the kind, the leafref path, and the declared enum names
(`e.Type.Enum.Names()`). -/
structure YangType where
  Kind : YKind
  Path : String
  EnumNames : List String
deriving DecidableEq, Repr

/-- One member of a union type as read from the AST type's `Type` list:
its bare name, its identity base name when `ut.IdentityBase` is non-nil,
its resolved kind `ut.YangType.Kind` and the resolved enum names
`ut.YangType.Enum.Names()`. -/
structure UnionMemberType where
  Name : String
  IdentityBaseName : Option String
  YangTypeKind : YKind
  YangTypeEnumNames : List String
deriving DecidableEq, Repr

/-- The fields of the AST `yang.Type` attached to a `yang.Leaf` node that the
walker reads (`e.Node.(*yang.Leaf).Type`): the type name, the identity base
name when `IdentityBase` is non-nil, and the union member list `Type`. -/
structure YType where
  Name : String
  IdentityBaseName : Option String
  Members : List UnionMemberType
deriving DecidableEq, Repr

/-- The dynamic type of `e.Node` switched on by the walker.  A `Leaf` node
carries its AST type; every other AST node kind the switch does not name
falls into `Other`. -/
inductive YNode where
  | Module
  | Container
  | List
  | LeafList
  | Leaf (Type' : YType)
  | Other
deriving DecidableEq, Repr

/-- The fields of `yang.Entry` read by the walker: the name, the dynamic node
kind, the config tri-state, the space-separated list key string `Key`, the
resolved type (field `Type` in Go; `Type` is a Lean keyword, hence `Type'`)
and the child directory `Dir`.  `Dir` is a Go map from child name to child
entry; it is modelled as an association list whose storage order carries no
meaning. -/
inductive Entry where
  | mk (Name : String) (Node : YNode) (Config : TriState) (Key : String)
      (Type' : YangType) (Dir : List (String × Entry))

/-- Child directory of an entry. -/
def Entry.Dir : Entry → List (String × Entry)
  | .mk _ _ _ _ _ d => d

/-- Name of an entry. -/
def Entry.Name : Entry → String
  | .mk n _ _ _ _ _ => n

/-- Dynamic node kind of an entry. -/
def Entry.Node : Entry → YNode
  | .mk _ nd _ _ _ _ => nd

/-- Config tri-state of an entry. -/
def Entry.Config : Entry → TriState
  | .mk _ _ cfg _ _ _ => cfg

/-- List key string of an entry. -/
def Entry.Key : Entry → String
  | .mk _ _ _ key _ _ => key

/-- Resolved type of an entry (`e.Type` in Go). -/
def Entry.Type' : Entry → YangType
  | .mk _ _ _ _ ty _ => ty

/-- The `path.Path` record structure: module name, resolved AST type (a nil
pointer in Go's zero value, hence an `Option`), the two accumulated path
strings, the rendered type string and the effective config tri-state. -/
structure Path where
  Module : String
  Type' : Option YType
  XPath : String
  RestConfPath : String
  SType : String
  Config : TriState
deriving DecidableEq, Repr

/-- The zero value `path.Path{}` passed to the walker at the root. -/
def zeroPath : Path :=
  { Module := "", Type' := none, XPath := "", RestConfPath := "", SType := "", Config := .TSUnset }

/-! ## The tree walker (`path.Paths`) -/

/-- The rendered type string `p.SType` built in the `*yang.Leaf` arm of the
walker: the faint-printed bare type name, then the identityref, leafref,
enumeration and union decorations, each appended under its own independent
condition exactly as in the source.  `t` is the leaf's AST type
(`e.Node.(*yang.Leaf).Type`), `ty` the entry's resolved type (`e.Type`). -/
def leafSType (noColor : Bool) (t : YType) (ty : YangType) : String :=
  let s := typeColorSprint noColor t.Name
  let s := match t.IdentityBaseName with
    | some b => s ++ typeColorSprint noColor ("->" ++ b)
    | none => s
  let s := if ty.Kind = .Yleafref then s ++ typeColorSprint noColor ("->" ++ ty.Path) else s
  let s := if ty.Kind = .Yenum then s ++ typeColorSprint noColor (goQuoteSlice ty.EnumNames) else s
  if ty.Kind = .Yunion then
    s ++ typeColorSprint noColor
      ("\x7b" ++ goJoin " "
        (t.Members.map (fun ut =>
          match ut.IdentityBaseName with
          | some b => "identityref->" ++ b
          | none =>
            if ut.YangTypeKind = .Yenum then "enumeration" ++ goQuoteSlice ut.YangTypeEnumNames
            else ut.Name)) ++ "\x7d")
  else s

/-- The `switch e.Node.(type)` body of the walker: given the fields of the
entry, the incoming accumulator `p` and the colour switch, it returns the
updated accumulator passed on to the children together with the list of
records appended to the collector at this node (`[p']` at a leaf, `[]`
everywhere else). -/
def pathsStep (n : String) (nd : YNode) (cfg : TriState) (key : String) (ty : YangType)
    (p : Path) (noColor : Bool) : Path × List Path :=
  match nd with
  | .Module => ({ p with Module := n }, [])
  | .Container =>
    ({ p with
        XPath := p.XPath ++ "/" ++ n,
        RestConfPath := p.RestConfPath ++ "/" ++ n,
        Config := if cfg ≠ .TSUnset then cfg else p.Config }, [])
  | .List =>
    let keyElems : String × String :=
      if key ≠ "" then
        let keys := goSplit " " key
        (String.join (keys.map (fun k => keyColorSprint noColor ("[" ++ k ++ "=*]"))),
         keyColorSprint noColor (goJoin "," keys))
      else ("", "")
    ({ p with
        Config := if cfg ≠ .TSUnset then cfg else p.Config,
        XPath := p.XPath ++ "/" ++ n ++ keyElems.1,
        RestConfPath := p.RestConfPath ++ "/" ++ n ++ "=" ++ keyElems.2 }, [])
  | .LeafList =>
    ({ p with Config := if cfg ≠ .TSUnset then cfg else p.Config }, [])
  | .Leaf t =>
    let p' := { p with
        Config := if cfg ≠ .TSUnset then cfg else p.Config,
        XPath := p.XPath ++ "/" ++ n,
        RestConfPath := p.RestConfPath ++ "/" ++ n,
        Type' := some t,
        SType := leafSType noColor t ty }
    (p', [p'])
  | .Other => (p, [])

/-- Indexing `e.Dir[k]` of the child directory, exactly the first-match
association-list lookup (a Go map holds at most one binding per key). -/
def lookupD (k : String) : List (String × Entry) → Option Entry
  | [] => none
  | (k', v) :: rest => if k = k' then some v else lookupD k rest

/-- The child-visiting sequence of the walker: the keys of `e.Dir` are
collected, sorted with `sort.Strings`, and each is looked up again in the
directory. -/
def childrenOf (d : List (String × Entry)) : List Entry :=
  (sortStrings (d.map Prod.fst)).filterMap (fun k => lookupD k d)

/-- The recursive walker `path.Paths`.  It applies the per-kind switch
(`pathsStep`), then recurses into the children in sorted name order, each
child receiving the updated accumulator by value.  The collector argument of
the Go function is materialised as the returned list, in append order. -/
def Paths (e : Entry) (p : Path) (termcolor : Bool) : List Path :=
  match e with
  | .mk n nd cfg key ty d =>
    (pathsStep n nd cfg key ty p (!termcolor)).2 ++
      (childrenOf d).attach.flatMap
        (fun c => Paths c.1 (pathsStep n nd cfg key ty p (!termcolor)).1 termcolor)
termination_by sizeOf e
decreasing_by
  obtain ⟨k, -, hk⟩ := List.mem_filterMap.mp c.2
  have hlt : ∀ dd : List (String × Entry), lookupD k dd = some c.1 → sizeOf c.1 < sizeOf dd := by
    intro dd
    induction dd with
    | nil => intro hcontra; simp [lookupD] at hcontra
    | cons kv rest ih =>
      intro hsome
      obtain ⟨k', v⟩ := kv
      simp only [lookupD] at hsome
      split at hsome
      · cases hsome; simp; omega
      · have := ih hsome; simp; omega
  have := hlt d hk
  simp
  omega

/-! ## The text renderer and the template helpers (`export.go`) -/

/-- The per-record options of the text renderer, one field per configuration
value read inside the output loop of the export command. -/
structure TextOpts where
  onlyNodes : String
  withModule : String
  nodeState : Bool
  style : String
  types : String
deriving DecidableEq, Repr

/-- The `path-only-nodes` filter switch at the top of the text-mode output
loop: a record is skipped (`continue`) when the filter is `config` and the
record is read-only, or when the filter is `state` and the record is
read-write or unset; any other filter value skips nothing. -/
def skipRecord (onlyNodes : String) (p : Path) : Bool :=
  match onlyNodes with
  | "config" => p.Config = .TSFalse
  | "state" => p.Config = .TSTrue ∨ p.Config = .TSUnset
  | _ => false

/-- The body of the text-mode output loop up to the final join: the
`path-only-nodes` filter (`continue` becomes `none`), then the field slice
`ps` assembled in source order: optional module name, optional `[rw]`/`[ro]`
indicator, the path in the requested style, the optional type string.
(Reading `path.Type.Name` dereferences a pointer that is nil only for records
the walker never produces; the dereference is modelled as `""` on `none`.) -/
def renderTextFields (o : TextOpts) (p : Path) : Option (List String) :=
  if skipRecord o.onlyNodes p then none
  else
    let ps : List String := []
    let ps := ps ++ (if o.withModule = "yes" then [p.Module] else [])
    let ps := ps ++ (if o.nodeState then [if p.Config = .TSFalse then "[ro]" else "[rw]"] else [])
    let ps := ps ++
      (match o.style with
       | "xpath" => [p.XPath]
       | "restconf" => [p.RestConfPath]
       | _ => [])
    let ps := ps ++
      (match o.types with
       | "yes" => [(p.Type'.map YType.Name).getD ""]
       | "detailed" => [p.SType]
       | _ => [])
    some ps

/-- One printed line of text-mode output: the selected fields joined by a
double space, or `none` when the record is filtered out. -/
def renderTextLine (o : TextOpts) (p : Path) : Option String :=
  (renderTextFields o p).map (fun ps => goJoin "  " ps)

/-- The whole text-mode loop: one line per record surviving the filter, in
input order. -/
def renderText (o : TextOpts) (paths : List Path) : List String :=
  paths.filterMap (renderTextLine o)

/-- The built-in default HTML template string `defTemplate` (braces written
with their character codes). -/
def defTemplate : String :=
  "\n<table class=\"table table-striped\">\n<thead>\n  <tr>\n\t<th>#</th>\n\t<th>Module</th>\n\t<th>Path</th>\n\t<th>Leaf Type</th>\n  </tr>\n</thead>\n<tbody>\n\x7b\x7brange $i, $p  := .Paths\x7d\x7d\n<tr>\n\t<td>\x7b\x7b$i\x7d\x7d</td>\n\t<td>\x7b\x7b$p.Module\x7d\x7d</td>\n\t<td>\x7b\x7b$p.XPath\x7d\x7d</td>\n\t<td>\x7b\x7b$p.Type.Name\x7d\x7d</td>\n  </tr>\n\x7b\x7bend\x7d\x7d\n</tbody>\n</table>\n"

/-- The template-selection switch at the top of `path.Template`: when the
argument `t` is non-empty the template body is read from the file named by
the process-wide configuration value `path-template` (passed here explicitly
as `cfgPathTemplate`, with the file system as the function `readFile`);
otherwise the built-in default is used.  A read error propagates. -/
def resolveTemplateBody (t : String) (readFile : String → Except String String)
    (cfgPathTemplate : String) : Except String String :=
  if t ≠ "" then readFile cfgPathTemplate else Except.ok defTemplate

/-- Assignment into the `Vars` map of the template input: a Go map stores at
most one binding per key, the new value replacing any old one. -/
def insertVar : List (String × String) → String → String → List (String × String)
  | [], k, v => [(k, v)]
  | (k', v') :: rest, k, v =>
    if k' = k then (k, v) :: rest else (k', v') :: insertVar rest k v

/-- One iteration of the template-variable loop: split the argument on
`:::`; with fewer than two segments the argument is logged and skipped,
otherwise the first segment maps to the remaining segments re-joined with
`:::`. -/
def parseVarStep (acc : List (String × String)) (v : String) : List (String × String) :=
  match goSplit ":::" v with
  | k :: r :: rest => insertVar acc k (goJoin ":::" (r :: rest))
  | _ => acc

/-- The whole template-variable loop of `path.Template`, producing the
`Vars` map handed to the template engine. -/
def parseTemplateVars (vars : List String) : List (String × String) :=
  vars.foldl parseVarStep []

/-! ## Specification-side definitions

The following definitions are written from the claims' wording; the theorems
below compare the walker and renderer against them. -/

mutual
/-- Number of Leaf nodes reachable from an entry. -/
def countLeaves : Entry → Nat
  | .mk _ nd _ _ _ d => (match nd with | .Leaf _ => 1 | _ => 0) + countLeavesD d
/-- Sum of `countLeaves` over the children of a directory. -/
def countLeavesD : List (String × Entry) → Nat
  | [] => 0
  | kv :: rest => countLeaves kv.2 + countLeavesD rest
end

/-- Well-formedness of the modelled `Dir` maps: at every node the association
list has pairwise distinct keys, as a Go map always does. -/
inductive NodupKeys : Entry → Prop where
  | mk {n : String} {nd : YNode} {cfg : TriState} {key : String} {ty : YangType}
      {d : List (String × Entry)} :
      (d.map Prod.fst).Nodup → (∀ kv ∈ d, NodupKeys kv.2) →
      NodupKeys (.mk n nd cfg key ty d)

/-- The node kinds whose explicitly declared config state overwrites the
inherited one (claim wording: Container, List, LeafList and Leaf). -/
def updatesConfig : YNode → Bool
  | .Container => true
  | .List => true
  | .LeafList => true
  | .Leaf _ => true
  | .Module => false
  | .Other => false

/-- One inheritance step: a node with a declared state of an updating kind
overwrites the state inherited so far, any other node keeps it. -/
def cfgStep (acc : TriState) (e : Entry) : TriState :=
  if updatesConfig e.Node = true ∧ e.Config ≠ .TSUnset then e.Config else acc

/-- The effective config state along a root-to-leaf chain of entries: the
nearest explicitly declared ancestor-or-self state, or the initial value when
none was ever declared. -/
def effConfig (init : TriState) (chain : List Entry) : TriState :=
  chain.foldl cfgStep init

/-- The root-to-leaf entry chains of a tree, in the walker's visiting order:
a chain per reachable Leaf node, each listing the entries from the given root
down to that leaf. -/
def leafChains (e : Entry) : List (List Entry) :=
  match e with
  | .mk _ nd _ _ _ d =>
    (match nd with | .Leaf _ => [[e]] | _ => []) ++
      (childrenOf d).attach.flatMap (fun c => (leafChains c.1).map (e :: ·))
termination_by sizeOf e
decreasing_by
  obtain ⟨k, -, hk⟩ := List.mem_filterMap.mp c.2
  have hlt : ∀ dd : List (String × Entry), lookupD k dd = some c.1 → sizeOf c.1 < sizeOf dd := by
    intro dd
    induction dd with
    | nil => intro hcontra; simp [lookupD] at hcontra
    | cons kv rest ih =>
      intro hsome
      obtain ⟨k', v⟩ := kv
      simp only [lookupD] at hsome
      split at hsome
      · cases hsome; simp; omega
      · have := ih hsome; simp; omega
  have := hlt d hk
  simp
  omega

/-- Insertion step of `sortPairs`, ordering by key. -/
def insertPair (kv : String × Entry) : List (String × Entry) → List (String × Entry)
  | [] => [kv]
  | kv' :: rest => if strLe kv.1 kv'.1 then kv :: kv' :: rest else kv' :: insertPair kv rest

/-- Sorting a child directory by key. -/
def sortPairs : List (String × Entry) → List (String × Entry)
  | [] => []
  | kv :: rest => insertPair kv (sortPairs rest)

mutual
/-- The storage-order canonical form of a tree: every `Dir` list is sorted by
key, recursively.  Two trees are the same up to storage order exactly when
they have the same canonical form. -/
def canon : Entry → Entry
  | .mk n nd cfg key ty d => .mk n nd cfg key ty (sortPairs (canonD d))
/-- Pointwise canonicalisation of the children of a directory. -/
def canonD : List (String × Entry) → List (String × Entry)
  | [] => []
  | (k, v) :: rest => (k, canon v) :: canonD rest
end

/-- The first occurrence of `sep` in `l`, fuel-structured: `some (a, b)` when
`l = a ++ sep ++ b` with no occurrence of `sep` beginning inside `a`. -/
def firstSplitL (sep : List Char) : Nat → List Char → Option (List Char × List Char)
  | 0, _ => none
  | fuel + 1, l =>
    if lstartsWith sep l then some ([], l.drop sep.length)
    else
      match l with
      | [] => none
      | c :: cs => (firstSplitL sep fuel cs).map (fun ab => (c :: ab.1, ab.2))

/-- The text before and after the first occurrence of `sep` in `v`, or `none`
when `v` does not contain `sep`. -/
def firstSplit (sep v : String) : Option (String × String) :=
  (firstSplitL sep.toList (v.toList.length + 1) v.toList).map
    (fun ab => (ab.1.asString, ab.2.asString))

/-- Rendering of one union member as worded by the (amended) claim:
`identityref->BASE` for a member with an identity base, otherwise
`enumeration` followed by the `%+q`-quoted name list for an enumeration
member, otherwise the bare name. -/
def specUnionMember (ut : UnionMemberType) : String :=
  match ut.IdentityBaseName with
  | some b => "identityref->" ++ b
  | none =>
    if ut.YangTypeKind = .Yenum then "enumeration" ++ goQuoteSlice ut.YangTypeEnumNames
    else ut.Name

/-! ## Lemmas about the string order and the `sort.Strings` model -/

theorem leChars_total : ∀ (a b : List Char), leChars a b = true ∨ leChars b a = true := by
  intro a
  induction a with
  | nil => intro b; left; rfl
  | cons x xs ih =>
    intro b
    cases b with
    | nil => right; rfl
    | cons y ys =>
      rcases lt_trichotomy x y with hxy | hxy | hxy
      · left; simp [leChars, hxy]
      · subst hxy
        rcases ih ys with h | h
        · left; simp [leChars, lt_irrefl, h]
        · right; simp [leChars, lt_irrefl, h]
      · right; simp [leChars, hxy]

theorem leChars_trans :
    ∀ (a b c : List Char), leChars a b = true → leChars b c = true → leChars a c = true := by
  intro a
  induction a with
  | nil => intro b c _ _; rfl
  | cons x xs ih =>
    intro b c h₁ h₂
    cases b with
    | nil => simp [leChars] at h₁
    | cons y ys =>
      cases c with
      | nil => simp [leChars] at h₂
      | cons z zs =>
        simp only [leChars] at h₁ h₂ ⊢
        rcases lt_trichotomy x y with hxy | hxy | hxy
        · rcases lt_trichotomy y z with hyz | hyz | hyz
          · simp [lt_trans hxy hyz]
          · subst hyz; simp [hxy]
          · simp [asymm hyz, hyz] at h₂
        · subst hxy
          rcases lt_trichotomy x z with hxz | hxz | hxz
          · simp [hxz]
          · subst hxz
            simp only [lt_irrefl, if_false] at h₁ h₂ ⊢
            exact ih ys zs h₁ h₂
          · simp [asymm hxz, hxz] at h₂
        · simp [asymm hxy, hxy] at h₁

theorem leChars_antisymm :
    ∀ (a b : List Char), leChars a b = true → leChars b a = true → a = b := by
  intro a
  induction a with
  | nil =>
    intro b _ h₂
    cases b with
    | nil => rfl
    | cons y ys => simp [leChars] at h₂
  | cons x xs ih =>
    intro b h₁ h₂
    cases b with
    | nil => simp [leChars] at h₁
    | cons y ys =>
      simp only [leChars] at h₁ h₂
      rcases lt_trichotomy x y with hxy | hxy | hxy
      · simp [asymm hxy, hxy] at h₂
      · subst hxy
        simp only [lt_irrefl, if_false] at h₁ h₂
        rw [ih ys h₁ h₂]
      · simp [asymm hxy, hxy] at h₁

theorem toList_inj {s t : String} (h : s.toList = t.toList) : s = t := by
  cases s
  cases t
  simp only [String.toList] at h
  exact congrArg String.mk h

theorem strLe_total (a b : String) : strLe a b = true ∨ strLe b a = true :=
  leChars_total a.toList b.toList

theorem strLe_trans {a b c : String} (h₁ : strLe a b = true) (h₂ : strLe b c = true) :
    strLe a c = true :=
  leChars_trans a.toList b.toList c.toList h₁ h₂

theorem strLe_antisymm {a b : String} (h₁ : strLe a b = true) (h₂ : strLe b a = true) : a = b :=
  toList_inj (leChars_antisymm a.toList b.toList h₁ h₂)

theorem insertStr_perm (s : String) (l : List String) : (insertStr s l).Perm (s :: l) := by
  induction l with
  | nil => exact List.Perm.refl _
  | cons t ts ih =>
    simp only [insertStr]
    split
    · exact List.Perm.refl _
    · exact ((ih.cons t).trans (List.Perm.swap s t ts))

theorem sortStrings_perm (l : List String) : (sortStrings l).Perm l := by
  induction l with
  | nil => exact List.Perm.refl _
  | cons s ss ih =>
    exact (insertStr_perm s (sortStrings ss)).trans (ih.cons s)

theorem insertStr_sorted (s : String) (l : List String)
    (h : List.Sorted (fun a b => strLe a b = true) l) :
    List.Sorted (fun a b => strLe a b = true) (insertStr s l) := by
  induction l with
  | nil => simp [insertStr]
  | cons t ts ih =>
    simp only [insertStr]
    split
    · rename_i hst
      rw [List.sorted_cons]
      refine ⟨?_, h⟩
      intro b hb
      rcases List.mem_cons.mp hb with rfl | hb
      · exact hst
      · exact strLe_trans hst ((List.sorted_cons.mp h).1 b hb)
    · rename_i hst
      have hts : strLe t s = true := by
        rcases strLe_total s t with h' | h'
        · exact absurd h' hst
        · exact h'
      rw [List.sorted_cons] at h ⊢
      refine ⟨?_, ih h.2⟩
      intro b hb
      rcases List.mem_cons.mp ((insertStr_perm s ts).mem_iff.mp hb) with hbs | hb'
      · rw [hbs]; exact hts
      · exact h.1 b hb'

theorem sortStrings_sorted (l : List String) :
    List.Sorted (fun a b => strLe a b = true) (sortStrings l) := by
  induction l with
  | nil => simp [sortStrings]
  | cons s ss ih => exact insertStr_sorted s (sortStrings ss) ih

theorem sortStrings_eq_of_perm {l₁ l₂ : List String} (h : l₁.Perm l₂) :
    sortStrings l₁ = sortStrings l₂ := by
  have hanti : IsAntisymm String (fun a b => strLe a b = true) := ⟨fun _ _ => strLe_antisymm⟩
  exact @List.eq_of_perm_of_sorted _ _ hanti _ _
    (((sortStrings_perm l₁).trans h).trans (sortStrings_perm l₂).symm)
    (sortStrings_sorted l₁) (sortStrings_sorted l₂)

theorem sortStrings_idem (l : List String) : sortStrings (sortStrings l) = sortStrings l := by
  have hanti : IsAntisymm String (fun a b => strLe a b = true) := ⟨fun _ _ => strLe_antisymm⟩
  exact @List.eq_of_perm_of_sorted _ _ hanti _ _
    (sortStrings_perm (sortStrings l))
    (sortStrings_sorted (sortStrings l)) (sortStrings_sorted l)

/-! ## Lemmas about directory lookup and the child-visiting sequence -/

theorem lookupD_mem {k : String} {d : List (String × Entry)} {c : Entry}
    (h : lookupD k d = some c) : (k, c) ∈ d := by
  induction d with
  | nil => simp [lookupD] at h
  | cons kv rest ih =>
    obtain ⟨k', v⟩ := kv
    simp only [lookupD] at h
    split at h
    · rename_i hk
      cases h
      rw [hk]
      exact List.mem_cons_self _ _
    · exact List.mem_cons_of_mem _ (ih h)

theorem lookupD_eq_none {k : String} {d : List (String × Entry)}
    (h : k ∉ d.map Prod.fst) : lookupD k d = none := by
  induction d with
  | nil => rfl
  | cons kv rest ih =>
    obtain ⟨k', v⟩ := kv
    simp only [List.map_cons, List.mem_cons] at h
    push_neg at h
    simp only [lookupD, if_neg h.1]
    exact ih h.2

theorem lookupD_append_left {k : String} {d₁ : List (String × Entry)}
    (h : k ∉ d₁.map Prod.fst) (d₂ : List (String × Entry)) :
    lookupD k (d₁ ++ d₂) = lookupD k d₂ := by
  induction d₁ with
  | nil => rfl
  | cons kv rest ih =>
    obtain ⟨k', v⟩ := kv
    simp only [List.map_cons, List.mem_cons] at h
    push_neg at h
    simp only [List.cons_append, lookupD, if_neg h.1]
    exact ih h.2

theorem lookupD_append_middle {k x : String} {a : Entry} (hkx : k ≠ x)
    (d₁ d₂ : List (String × Entry)) :
    lookupD k (d₁ ++ (x, a) :: d₂) = lookupD k (d₁ ++ d₂) := by
  induction d₁ with
  | nil => simp only [List.nil_append, lookupD, if_neg hkx]
  | cons kv rest ih =>
    obtain ⟨k', v⟩ := kv
    simp only [List.cons_append, lookupD]
    split
    · rfl
    · exact ih

theorem lookupD_perm {d₁ d₂ : List (String × Entry)} (h : d₁.Perm d₂)
    (hnd : (d₁.map Prod.fst).Nodup) (k : String) : lookupD k d₁ = lookupD k d₂ := by
  induction h with
  | nil => rfl
  | cons kv _ ih =>
    obtain ⟨k', v⟩ := kv
    simp only [List.map_cons, List.nodup_cons] at hnd
    simp only [lookupD]
    split
    · rfl
    · exact ih hnd.2
  | swap kv₁ kv₂ l =>
    obtain ⟨k₁, v₁⟩ := kv₁
    obtain ⟨k₂, v₂⟩ := kv₂
    simp only [List.map_cons, List.nodup_cons, List.mem_cons] at hnd
    have hne : k₂ ≠ k₁ := fun hcontra => hnd.1 (Or.inl hcontra)
    simp only [lookupD]
    by_cases h₂ : k = k₂
    · have hk₁ : k ≠ k₁ := fun hcontra => hne (hcontra.symm.trans h₂).symm
      simp [h₂, hk₁, hne]
    · by_cases h₁ : k = k₁ <;> simp [h₁, h₂, hne, Ne.symm hne]
  | trans h₁₂ h₂₃ ih₁₂ ih₂₃ =>
    rename_i l₁ l₂ l₃
    have hnd₂ : (l₂.map Prod.fst).Nodup := (h₁₂.map Prod.fst).nodup hnd
    exact (ih₁₂ hnd).trans (ih₂₃ hnd₂)

theorem mem_childrenOf {c : Entry} {d : List (String × Entry)} (h : c ∈ childrenOf d) :
    ∃ k, lookupD k d = some c := by
  obtain ⟨k, -, hk⟩ := List.mem_filterMap.mp h
  exact ⟨k, hk⟩

theorem filterMap_lookup_nodup {d : List (String × Entry)}
    (hnd : (d.map Prod.fst).Nodup) :
    (d.map Prod.fst).filterMap (fun k => lookupD k d) = d.map Prod.snd := by
  induction d with
  | nil => rfl
  | cons kv rest ih =>
    obtain ⟨k₀, v₀⟩ := kv
    simp only [List.map_cons, List.nodup_cons] at hnd
    have hstep : ∀ k ∈ rest.map Prod.fst,
        lookupD k ((k₀, v₀) :: rest) = lookupD k rest := by
      intro k hk
      have hne : k ≠ k₀ := fun hcontra => hnd.1 (hcontra ▸ hk)
      simp [lookupD, hne]
    rw [List.map_cons, List.map_cons, List.filterMap_cons]
    rw [List.filterMap_congr hstep, ih hnd.2]
    simp [lookupD]

theorem childrenOf_perm {d : List (String × Entry)} (hnd : (d.map Prod.fst).Nodup) :
    (childrenOf d).Perm (d.map Prod.snd) := by
  have h₁ : (childrenOf d).Perm ((d.map Prod.fst).filterMap (fun k => lookupD k d)) :=
    (sortStrings_perm (d.map Prod.fst)).filterMap _
  rw [filterMap_lookup_nodup hnd] at h₁
  exact h₁

/-! ## Unfolding equations and induction principle for the walker -/

theorem entry_strong_induction {P : Entry → Prop}
    (H : ∀ e, (∀ c : Entry, sizeOf c < sizeOf e → P c) → P e) : ∀ e, P e := by
  have haux : ∀ N (e : Entry), sizeOf e ≤ N → P e := by
    intro N
    induction N with
    | zero =>
      intro e he
      exact H e (fun c hc => ((Nat.not_lt_zero _) (lt_of_lt_of_le hc he)).elim)
    | succ N ih =>
      intro e he
      exact H e (fun c hc => ih c (by omega))
  intro e
  exact haux (sizeOf e) e le_rfl

theorem sizeOf_lt_of_mem_childrenOf {c : Entry} {n : String} {nd : YNode} {cfg : TriState}
    {key : String} {ty : YangType} {d : List (String × Entry)} (h : c ∈ childrenOf d) :
    sizeOf c < sizeOf (Entry.mk n nd cfg key ty d) := by
  obtain ⟨k, hk⟩ := mem_childrenOf h
  have hmem := lookupD_mem hk
  have h₁ : sizeOf (k, c) < sizeOf d := List.sizeOf_lt_of_mem hmem
  simp only [Prod.mk.sizeOf_spec] at h₁
  simp only [Entry.mk.sizeOf_spec]
  omega

theorem Paths_mk (n : String) (nd : YNode) (cfg : TriState) (key : String) (ty : YangType)
    (d : List (String × Entry)) (p : Path) (tc : Bool) :
    Paths (.mk n nd cfg key ty d) p tc =
      (pathsStep n nd cfg key ty p (!tc)).2 ++
        (childrenOf d).flatMap (fun c => Paths c (pathsStep n nd cfg key ty p (!tc)).1 tc) := by
  rw [Paths]
  congr 1
  simp

theorem leafChains_mk (n : String) (nd : YNode) (cfg : TriState) (key : String) (ty : YangType)
    (d : List (String × Entry)) :
    leafChains (.mk n nd cfg key ty d) =
      (match nd with | .Leaf _ => [[Entry.mk n nd cfg key ty d]] | _ => []) ++
        (childrenOf d).flatMap
          (fun c => (leafChains c).map (Entry.mk n nd cfg key ty d :: ·)) := by
  cases nd <;> (rw [leafChains]; simp) <;> (intro t' hcontra; cases hcontra)

/-! ## Lemmas about pair sorting and the canonical form -/

theorem insertPair_perm (kv : String × Entry) (l : List (String × Entry)) :
    (insertPair kv l).Perm (kv :: l) := by
  induction l with
  | nil => exact List.Perm.refl _
  | cons kv' rest ih =>
    simp only [insertPair]
    split
    · exact List.Perm.refl _
    · exact ((ih.cons kv').trans (List.Perm.swap kv kv' rest))

theorem sortPairs_perm (d : List (String × Entry)) : (sortPairs d).Perm d := by
  induction d with
  | nil => exact List.Perm.refl _
  | cons kv rest ih => exact (insertPair_perm kv (sortPairs rest)).trans (ih.cons kv)

theorem map_fst_insertPair (kv : String × Entry) (l : List (String × Entry)) :
    (insertPair kv l).map Prod.fst = insertStr kv.1 (l.map Prod.fst) := by
  induction l with
  | nil => rfl
  | cons kv' rest ih =>
    simp only [insertPair, insertStr, List.map_cons]
    split
    · rw [List.map_cons, List.map_cons]
    · rw [List.map_cons, ih]

theorem map_fst_sortPairs (d : List (String × Entry)) :
    (sortPairs d).map Prod.fst = sortStrings (d.map Prod.fst) := by
  induction d with
  | nil => rfl
  | cons kv rest ih =>
    simp only [sortPairs, sortStrings, List.map_cons]
    rw [map_fst_insertPair, ih]

theorem canonD_map (d : List (String × Entry)) :
    canonD d = d.map (fun kv => (kv.1, canon kv.2)) := by
  induction d with
  | nil => rfl
  | cons kv rest ih =>
    obtain ⟨k, v⟩ := kv
    rw [canonD, ih, List.map_cons]

theorem map_fst_canonD (d : List (String × Entry)) :
    (canonD d).map Prod.fst = d.map Prod.fst := by
  rw [canonD_map, List.map_map]
  rfl

theorem lookupD_canonD (k : String) (d : List (String × Entry)) :
    lookupD k (canonD d) = (lookupD k d).map canon := by
  induction d with
  | nil => rfl
  | cons kv rest ih =>
    obtain ⟨k', v⟩ := kv
    rw [canonD]
    simp only [lookupD]
    split
    · rfl
    · exact ih

theorem canon_mk (n : String) (nd : YNode) (cfg : TriState) (key : String) (ty : YangType)
    (d : List (String × Entry)) :
    canon (.mk n nd cfg key ty d) = .mk n nd cfg key ty (sortPairs (canonD d)) := by
  rw [canon]

theorem NodupKeys_dir {n : String} {nd : YNode} {cfg : TriState} {key : String} {ty : YangType}
    {d : List (String × Entry)} (h : NodupKeys (Entry.mk n nd cfg key ty d)) :
    (d.map Prod.fst).Nodup ∧ ∀ kv ∈ d, NodupKeys kv.2 := by
  cases h with
  | mk h₁ h₂ => exact ⟨h₁, h₂⟩

theorem childrenOf_canon {d : List (String × Entry)} (hkeys : (d.map Prod.fst).Nodup) :
    childrenOf (sortPairs (canonD d)) = (childrenOf d).map canon := by
  have hndsp : ((sortPairs (canonD d)).map Prod.fst).Nodup := by
    rw [map_fst_sortPairs, map_fst_canonD]
    exact (sortStrings_perm (d.map Prod.fst)).symm.nodup hkeys
  have hlook : ∀ k, lookupD k (sortPairs (canonD d)) = (lookupD k d).map canon := by
    intro k
    rw [lookupD_perm (sortPairs_perm (canonD d)) hndsp k, lookupD_canonD]
  unfold childrenOf
  rw [map_fst_sortPairs, map_fst_canonD, sortStrings_idem]
  rw [List.filterMap_congr (fun k _ => hlook k), List.map_filterMap]

theorem NodupKeys_of_mem_childrenOf {c : Entry} {n : String} {nd : YNode} {cfg : TriState}
    {key : String} {ty : YangType} {d : List (String × Entry)}
    (hnd : NodupKeys (Entry.mk n nd cfg key ty d)) (h : c ∈ childrenOf d) : NodupKeys c := by
  obtain ⟨k, hk⟩ := mem_childrenOf h
  exact (NodupKeys_dir hnd).2 (k, c) (lookupD_mem hk)

theorem Paths_canon (e : Entry) : NodupKeys e → ∀ (p : Path) (tc : Bool),
    Paths (canon e) p tc = Paths e p tc := by
  induction e using entry_strong_induction with
  | H e ih =>
    obtain ⟨n, nd, cfg, key, ty, d⟩ := e
    intro hnd p tc
    obtain ⟨hkeys, -⟩ := NodupKeys_dir hnd
    rw [canon_mk, Paths_mk, Paths_mk, childrenOf_canon hkeys, List.flatMap_map]
    congr 1
    apply List.flatMap_congr
    intro c hc
    exact ih c (sizeOf_lt_of_mem_childrenOf hc) (NodupKeys_of_mem_childrenOf hnd hc) _ tc

/-! ## Counting records (claim C4) -/

theorem countLeaves_mk (n : String) (nd : YNode) (cfg : TriState) (key : String) (ty : YangType)
    (d : List (String × Entry)) :
    countLeaves (.mk n nd cfg key ty d) =
      (match nd with | .Leaf _ => 1 | _ => 0) + countLeavesD d := by
  cases nd <;> rw [countLeaves] <;> (intro t' hcontra; cases hcontra)

theorem countLeavesD_eq (d : List (String × Entry)) :
    countLeavesD d = (d.map (fun kv => countLeaves kv.2)).sum := by
  induction d with
  | nil => rw [countLeavesD]; rfl
  | cons kv rest ih => rw [countLeavesD, ih, List.map_cons, List.sum_cons]

theorem length_pathsStep_snd (n : String) (nd : YNode) (cfg : TriState) (key : String)
    (ty : YangType) (p : Path) (noColor : Bool) :
    (pathsStep n nd cfg key ty p noColor).2.length =
      (match nd with | .Leaf _ => 1 | _ => 0) := by
  cases nd <;> rfl

theorem Paths_length (e : Entry) : NodupKeys e → ∀ (p : Path) (tc : Bool),
    (Paths e p tc).length = countLeaves e := by
  induction e using entry_strong_induction with
  | H e ih =>
    obtain ⟨n, nd, cfg, key, ty, d⟩ := e
    intro hnd p tc
    obtain ⟨hkeys, -⟩ := NodupKeys_dir hnd
    rw [Paths_mk, List.length_append, List.length_flatMap, length_pathsStep_snd, countLeaves_mk]
    congr 1
    have hptwise : ∀ c ∈ childrenOf d,
        (List.length ∘ fun c => Paths c (pathsStep n nd cfg key ty p (!tc)).1 tc) c =
          countLeaves c := by
      intro c hc
      exact ih c (sizeOf_lt_of_mem_childrenOf hc) (NodupKeys_of_mem_childrenOf hnd hc) _ tc
    rw [List.map_congr_left hptwise]
    have hperm := (childrenOf_perm hkeys).map countLeaves
    rw [hperm.sum_eq, countLeavesD_eq, List.map_map]
    rfl

/-! ## Config-state inheritance (claim C7) -/

theorem pathsStep_fst_Config (n : String) (nd : YNode) (cfg : TriState) (key : String)
    (ty : YangType) (p : Path) (noColor : Bool) (d : List (String × Entry)) :
    (pathsStep n nd cfg key ty p noColor).1.Config =
      cfgStep p.Config (.mk n nd cfg key ty d) := by
  cases nd <;> simp [pathsStep, cfgStep, updatesConfig, Entry.Node, Entry.Config]

theorem Paths_map_Config (e : Entry) : ∀ (p : Path) (tc : Bool),
    (Paths e p tc).map Path.Config = (leafChains e).map (effConfig p.Config) := by
  induction e using entry_strong_induction with
  | H e ih =>
    obtain ⟨n, nd, cfg, key, ty, d⟩ := e
    intro p tc
    rw [Paths_mk, leafChains_mk, List.map_append, List.map_append]
    congr 1
    · cases nd <;>
        simp [pathsStep, effConfig, cfgStep, updatesConfig, Entry.Node, Entry.Config]
    · rw [List.map_flatMap, List.map_flatMap]
      apply List.flatMap_congr
      intro c hc
      rw [ih c (sizeOf_lt_of_mem_childrenOf hc) _ tc, List.map_map]
      apply List.map_congr_left
      intro ch _
      have hcfg := pathsStep_fst_Config n nd cfg key ty p (!tc) d
      show effConfig (pathsStep n nd cfg key ty p (!tc)).1.Config ch =
        effConfig p.Config (Entry.mk n nd cfg key ty d :: ch)
      rw [hcfg]
      rfl

/-! ## Sibling isolation (claim C6) -/

theorem childrenOf_middle {d₁ d₂ : List (String × Entry)} {x : String}
    (hx : x ∉ (d₁ ++ d₂).map Prod.fst) :
    ∃ s₁ s₂ : List String, ∀ a : Entry,
      childrenOf (d₁ ++ (x, a) :: d₂) =
        s₁.filterMap (fun k => lookupD k (d₁ ++ d₂)) ++ a ::
          s₂.filterMap (fun k => lookupD k (d₁ ++ d₂)) := by
  have hx₁ : x ∉ d₁.map Prod.fst := fun hc => hx (by rw [List.map_append]; exact List.mem_append.mpr (Or.inl hc))
  have hx₂ : x ∉ d₂.map Prod.fst := fun hc => hx (by rw [List.map_append]; exact List.mem_append.mpr (Or.inr hc))
  have hKs : ∀ a : Entry, (d₁ ++ (x, a) :: d₂).map Prod.fst =
      d₁.map Prod.fst ++ x :: d₂.map Prod.fst := by
    intro a
    rw [List.map_append, List.map_cons]
  have hxS : x ∈ sortStrings (d₁.map Prod.fst ++ x :: d₂.map Prod.fst) :=
    (sortStrings_perm _).mem_iff.mpr (List.mem_append.mpr (Or.inr (List.mem_cons_self _ _)))
  obtain ⟨s₁, s₂, hS⟩ := List.append_of_mem hxS
  have hcount : List.count x (sortStrings (d₁.map Prod.fst ++ x :: d₂.map Prod.fst)) = 1 := by
    rw [(sortStrings_perm _).count_eq x, List.count_append, List.count_cons]
    rw [List.count_eq_zero.mpr hx₁, List.count_eq_zero.mpr hx₂]
    simp
  have hxs : x ∉ s₁ ∧ x ∉ s₂ := by
    rw [hS, List.count_append, List.count_cons] at hcount
    simp only [beq_self_eq_true, if_true] at hcount
    constructor
    · exact List.count_eq_zero.mp (by omega)
    · exact List.count_eq_zero.mp (by omega)
  refine ⟨s₁, s₂, ?_⟩
  intro a
  have hmid : ∀ k ∈ s₁ ++ s₂, lookupD k (d₁ ++ (x, a) :: d₂) = lookupD k (d₁ ++ d₂) := by
    intro k hk
    have hkx : k ≠ x := by
      rcases List.mem_append.mp hk with h | h
      · exact fun hcontra => hxs.1 (hcontra ▸ h)
      · exact fun hcontra => hxs.2 (hcontra ▸ h)
    exact lookupD_append_middle hkx d₁ d₂
  have hfx : lookupD x (d₁ ++ (x, a) :: d₂) = some a := by
    rw [lookupD_append_left hx₁]
    simp [lookupD]
  unfold childrenOf
  rw [hKs a, hS, List.filterMap_append]
  have hxcons : List.filterMap (fun k => lookupD k (d₁ ++ (x, a) :: d₂)) (x :: s₂) =
      a :: List.filterMap (fun k => lookupD k (d₁ ++ (x, a) :: d₂)) s₂ :=
    List.filterMap_cons_some hfx
  rw [hxcons]
  rw [List.filterMap_congr (fun k hk => hmid k (List.mem_append.mpr (Or.inl hk)))]
  rw [List.filterMap_congr (fun k hk => hmid k (List.mem_append.mpr (Or.inr hk)))]

/-! ## Lemmas about the `strings.Split` / `strings.Join` models -/

theorem asString_toList (s : String) : s.toList.asString = s := rfl

theorem toList_asString (l : List Char) : l.asString.toList = l := rfl

theorem toList_append (a b : String) : (a ++ b).toList = a.toList ++ b.toList := by
  cases a
  cases b
  rfl

theorem asString_append (l₁ l₂ : List Char) : (l₁ ++ l₂).asString = l₁.asString ++ l₂.asString := rfl

theorem toList_ne_nil {s : String} (h : s ≠ "") : s.toList ≠ [] := by
  intro hc
  exact h (toList_inj (by rw [hc]; rfl))

theorem length_strong_induction {P : List Char → Prop}
    (H : ∀ l, (∀ l' : List Char, l'.length < l.length → P l') → P l) : ∀ l, P l := by
  have haux : ∀ (N : Nat) (l : List Char), l.length ≤ N → P l := by
    intro N
    induction N with
    | zero =>
      intro l hl
      exact H l (fun l' hl' => ((Nat.not_lt_zero _) (lt_of_lt_of_le hl' hl)).elim)
    | succ N ih =>
      intro l hl
      exact H l (fun l' hl' => ih l' (by omega))
  intro l
  exact haux l.length l le_rfl

theorem goJoinL_cons_ne (sep s : List Char) {rest : List (List Char)} (h : rest ≠ []) :
    goJoinL sep (s :: rest) = s ++ sep ++ goJoinL sep rest := by
  cases rest with
  | nil => exact absurd rfl h
  | cons t ts => rfl

theorem goJoin_cons_ne (sep s : String) {rest : List String} (h : rest ≠ []) :
    goJoin sep (s :: rest) = s ++ sep ++ goJoin sep rest := by
  cases rest with
  | nil => exact absurd rfl h
  | cons t ts => rfl

theorem toList_goJoin (sep : String) (l : List String) :
    (goJoin sep l).toList = goJoinL sep.toList (l.map String.toList) := by
  induction l with
  | nil => rfl
  | cons s rest ih =>
    cases rest with
    | nil => rfl
    | cons t ts =>
      rw [List.map_cons, goJoin_cons_ne sep s (by simp),
        goJoinL_cons_ne sep.toList s.toList (by simp)]
      rw [toList_append, toList_append, ih, List.map_cons]

theorem lstartsWith_drop :
    ∀ (sep l : List Char), lstartsWith sep l = true → l = sep ++ l.drop sep.length := by
  intro sep
  induction sep with
  | nil => intro l _; rfl
  | cons p ps ih =>
    intro l h
    cases l with
    | nil => simp [lstartsWith] at h
    | cons c cs =>
      simp only [lstartsWith, Bool.and_eq_true, beq_iff_eq] at h
      obtain ⟨hpc, h₂⟩ := h
      subst hpc
      have := ih cs h₂
      simp only [List.length_cons, List.cons_append, List.drop_succ_cons]
      exact congrArg (p :: ·) this

theorem lstartsWith_false_of_not_true {sep l : List Char} (h : ¬lstartsWith sep l = true) :
    lstartsWith sep l = false := by
  cases hb : lstartsWith sep l
  · rfl
  · exact absurd hb h

theorem splitL_pos {sep l : List Char} (cur : List Char) (hsep : sep ≠ [])
    (hpre : lstartsWith sep l = true) :
    splitL sep l cur = cur.reverse :: splitL sep (l.drop sep.length) [] := by
  rw [splitL, dif_pos ⟨hsep, hpre⟩]

theorem splitL_nil (sep cur : List Char) (hsep : sep ≠ []) :
    splitL sep [] cur = [cur.reverse] := by
  have hpre : lstartsWith sep [] = false := by
    cases sep with
    | nil => exact absurd rfl hsep
    | cons p ps => rfl
  rw [splitL, dif_neg (fun hc => by rw [hpre] at hc; exact Bool.false_ne_true hc.2)]

theorem splitL_cons_neg {sep : List Char} (c : Char) (cs cur : List Char)
    (hpre : lstartsWith sep (c :: cs) = false) :
    splitL sep (c :: cs) cur = splitL sep cs (c :: cur) := by
  rw [splitL, dif_neg (fun hc => by rw [hpre] at hc; exact Bool.false_ne_true hc.2)]

theorem firstSplitL_succ_pos {sep l : List Char} (fuel : Nat)
    (hpre : lstartsWith sep l = true) :
    firstSplitL sep (fuel + 1) l = some ([], l.drop sep.length) := by
  simp [firstSplitL, hpre]

theorem firstSplitL_succ_nil {sep : List Char} (fuel : Nat)
    (hpre : lstartsWith sep [] = false) :
    firstSplitL sep (fuel + 1) [] = none := by
  simp [firstSplitL, hpre]

theorem firstSplitL_succ_cons {sep : List Char} (fuel : Nat) (c : Char) (cs : List Char)
    (hpre : lstartsWith sep (c :: cs) = false) :
    firstSplitL sep (fuel + 1) (c :: cs) =
      (firstSplitL sep fuel cs).map (fun ab => (c :: ab.1, ab.2)) := by
  simp [firstSplitL, hpre]

theorem splitL_of_firstSplitL_none (sep : List Char) (hsep : sep ≠ []) :
    ∀ (fuel : Nat) (l cur : List Char), l.length + 1 ≤ fuel →
      firstSplitL sep fuel l = none → splitL sep l cur = [cur.reverse ++ l] := by
  intro fuel
  induction fuel with
  | zero => intro l cur hlen _; omega
  | succ fuel ih =>
    intro l cur hlen hnone
    by_cases hpre : lstartsWith sep l = true
    · rw [firstSplitL_succ_pos fuel hpre] at hnone
      cases hnone
    · have hpre' := lstartsWith_false_of_not_true hpre
      cases l with
      | nil =>
        rw [splitL_nil sep cur hsep]
        simp
      | cons c cs =>
        rw [firstSplitL_succ_cons fuel c cs hpre'] at hnone
        have hcs : firstSplitL sep fuel cs = none := by
          cases hfs : firstSplitL sep fuel cs
          · rfl
          · rw [hfs] at hnone; cases hnone
        rw [splitL_cons_neg c cs cur hpre',
          ih cs (c :: cur) (by simp at hlen ⊢; omega) hcs]
        rw [List.reverse_cons, List.append_assoc]
        rfl

theorem splitL_of_firstSplitL_some (sep : List Char) (hsep : sep ≠ []) :
    ∀ (fuel : Nat) (l cur a b : List Char),
      firstSplitL sep fuel l = some (a, b) →
      splitL sep l cur = (cur.reverse ++ a) :: splitL sep b [] := by
  intro fuel
  induction fuel with
  | zero => intro l cur a b hsome; cases hsome
  | succ fuel ih =>
    intro l cur a b hsome
    by_cases hpre : lstartsWith sep l = true
    · rw [firstSplitL_succ_pos fuel hpre] at hsome
      cases hsome
      rw [splitL_pos cur hsep hpre]
      simp
    · have hpre' := lstartsWith_false_of_not_true hpre
      cases l with
      | nil =>
        rw [firstSplitL_succ_nil fuel hpre'] at hsome
        cases hsome
      | cons c cs =>
        rw [firstSplitL_succ_cons fuel c cs hpre'] at hsome
        cases hfs : firstSplitL sep fuel cs with
        | none => rw [hfs] at hsome; cases hsome
        | some ab =>
          obtain ⟨a', b'⟩ := ab
          rw [hfs] at hsome
          have hab : c :: a' = a ∧ b' = b := by
            simp only [Option.map, Option.some.injEq, Prod.mk.injEq] at hsome
            exact hsome
          rw [← hab.1, ← hab.2]
          rw [splitL_cons_neg c cs cur hpre', ih cs (c :: cur) a' b' hfs]
          rw [List.reverse_cons, List.append_assoc]
          rfl

theorem firstSplitL_some_append (sep : List Char) :
    ∀ (fuel : Nat) (l a b : List Char),
      firstSplitL sep fuel l = some (a, b) → l = a ++ sep ++ b := by
  intro fuel
  induction fuel with
  | zero => intro l a b hsome; cases hsome
  | succ fuel ih =>
    intro l a b hsome
    by_cases hpre : lstartsWith sep l = true
    · rw [firstSplitL_succ_pos fuel hpre] at hsome
      cases hsome
      simpa using lstartsWith_drop sep l hpre
    · have hpre' := lstartsWith_false_of_not_true hpre
      cases l with
      | nil =>
        rw [firstSplitL_succ_nil fuel hpre'] at hsome
        cases hsome
      | cons c cs =>
        rw [firstSplitL_succ_cons fuel c cs hpre'] at hsome
        cases hfs : firstSplitL sep fuel cs with
        | none => rw [hfs] at hsome; cases hsome
        | some ab =>
          obtain ⟨a', b'⟩ := ab
          rw [hfs] at hsome
          have hab : c :: a' = a ∧ b' = b := by
            simp only [Option.map, Option.some.injEq, Prod.mk.injEq] at hsome
            exact hsome
          rw [← hab.1, ← hab.2]
          rw [List.cons_append, List.cons_append, ← ih cs a' b' hfs]

theorem splitL_ne_nil (sep : List Char) : ∀ (l cur : List Char), splitL sep l cur ≠ [] := by
  intro l
  induction l using length_strong_induction with
  | H l ih =>
    intro cur
    rw [splitL]
    by_cases hc : sep ≠ [] ∧ lstartsWith sep l = true
    · rw [dif_pos hc]
      simp
    · rw [dif_neg hc]
      cases l with
      | nil => simp
      | cons c cs => exact ih cs (by simp) (c :: cur)

theorem goJoinL_splitL (sep : List Char) (hsep : sep ≠ []) :
    ∀ (l : List Char), goJoinL sep (splitL sep l []) = l := by
  intro l
  induction l using length_strong_induction with
  | H l ih =>
    cases hfs : firstSplitL sep (l.length + 1) l with
    | none =>
      rw [splitL_of_firstSplitL_none sep hsep (l.length + 1) l [] le_rfl hfs]
      rfl
    | some ab =>
      obtain ⟨a, b⟩ := ab
      have hl : l = a ++ sep ++ b := firstSplitL_some_append sep _ l a b hfs
      have hblen : b.length < l.length := by
        rw [hl]
        cases sep with
        | nil => exact absurd rfl hsep
        | cons p ps => simp; omega
      rw [splitL_of_firstSplitL_some sep hsep (l.length + 1) l [] a b hfs]
      rw [goJoinL_cons_ne sep _ (splitL_ne_nil sep b []), ih b hblen]
      simpa using hl.symm

theorem splitL_single_no_occ (c0 : Char) :
    ∀ (l : List Char), c0 ∉ l → ∀ cur, splitL [c0] l cur = [cur.reverse ++ l] := by
  intro l
  induction l with
  | nil =>
    intro _ cur
    rw [splitL_nil [c0] cur (by simp)]
    simp
  | cons c cs ih =>
    intro hno cur
    have hne : c0 ≠ c := fun hc => hno (by rw [hc]; exact List.mem_cons_self c cs)
    have hpre : lstartsWith [c0] (c :: cs) = false := by
      simp [lstartsWith, hne]
    rw [splitL_cons_neg c cs cur hpre,
      ih (fun hm => hno (List.mem_cons_of_mem c hm)) (c :: cur)]
    rw [List.reverse_cons, List.append_assoc]
    rfl

theorem splitL_single_append (c0 : Char) :
    ∀ (x t cur : List Char), c0 ∉ x →
      splitL [c0] (x ++ c0 :: t) cur = (cur.reverse ++ x) :: splitL [c0] t [] := by
  intro x
  induction x with
  | nil =>
    intro t cur _
    have hpre : lstartsWith [c0] (c0 :: t) = true := by simp [lstartsWith]
    rw [List.nil_append, splitL_pos cur (by simp) hpre]
    simp
  | cons c x' ih =>
    intro t cur hno
    have hne : c0 ≠ c := fun hc => hno (by rw [hc]; exact List.mem_cons_self c x')
    have hpre : lstartsWith [c0] (c :: (x' ++ c0 :: t)) = false := by
      simp [lstartsWith, hne]
    rw [List.cons_append, splitL_cons_neg _ _ cur hpre,
      ih t (c :: cur) (fun hm => hno (List.mem_cons_of_mem c hm))]
    rw [List.reverse_cons, List.append_assoc]
    rfl

theorem splitL_goJoinL_single (c0 : Char) :
    ∀ (xs : List (List Char)), xs ≠ [] → (∀ x ∈ xs, c0 ∉ x) →
      splitL [c0] (goJoinL [c0] xs) [] = xs := by
  intro xs
  induction xs with
  | nil => intro h _; exact absurd rfl h
  | cons x rest ih =>
    intro _ hx
    cases rest with
    | nil =>
      show splitL [c0] x [] = [x]
      rw [splitL_single_no_occ c0 x (hx x (List.mem_cons_self x [])) []]
      simp
    | cons y ys =>
      rw [goJoinL_cons_ne [c0] x (by simp)]
      have hform : x ++ [c0] ++ goJoinL [c0] (y :: ys) =
          x ++ c0 :: goJoinL [c0] (y :: ys) := by simp
      rw [hform, splitL_single_append c0 x _ [] (hx x (List.mem_cons_self x _))]
      rw [ih (by simp) (fun z hz => hx z (List.mem_cons_of_mem x hz))]
      simp

theorem goSplit_goJoin_space (ks : List String)
    (hk : ∀ k ∈ ks, ' ' ∉ k.toList) (hne : ks ≠ []) :
    goSplit " " (goJoin " " ks) = ks := by
  unfold goSplit
  rw [if_neg (by decide : ¬(" " : String) = "")]
  rw [toList_goJoin]
  have hsep : (" " : String).toList = [' '] := rfl
  rw [hsep]
  rw [splitL_goJoinL_single ' ' (ks.map String.toList) (by simpa using hne)
    (fun x hxm => by
      obtain ⟨k, hkmem, hkx⟩ := List.mem_map.mp hxm
      rw [← hkx]
      exact hk k hkmem)]
  rw [List.map_map]
  have hid : List.map (List.asString ∘ String.toList) ks = List.map id ks :=
    List.map_congr_left (fun k _ => asString_toList k)
  rw [hid, List.map_id]

theorem goJoin_map_asString (sep : String) (ls : List (List Char)) :
    goJoin sep (ls.map List.asString) = (goJoinL sep.toList ls).asString := by
  induction ls with
  | nil => rfl
  | cons s rest ih =>
    cases rest with
    | nil => rfl
    | cons t ts =>
      rw [List.map_cons, goJoin_cons_ne sep _ (by simp),
        goJoinL_cons_ne sep.toList _ (by simp), ih]
      rw [asString_append, asString_append, asString_toList]

theorem parseVarStep_none {acc : List (String × String)} {v : String}
    (h : firstSplit ":::" v = none) : parseVarStep acc v = acc := by
  have hnone : firstSplitL (":::" : String).toList (v.toList.length + 1) v.toList = none := by
    unfold firstSplit at h
    cases hfs : firstSplitL (":::" : String).toList (v.toList.length + 1) v.toList with
    | none => rfl
    | some ab =>
      rw [hfs] at h
      cases h
  have hone : goSplit ":::" v = [v] := by
    unfold goSplit
    rw [if_neg (by decide : ¬(":::" : String) = "")]
    rw [splitL_of_firstSplitL_none (":::" : String).toList (by decide) _ _ [] le_rfl hnone]
    have hrev : ([] : List Char).reverse ++ v.toList = v.toList := by simp
    rw [hrev, List.map_cons, List.map_nil, asString_toList]
  unfold parseVarStep
  rw [hone]

theorem parseVarStep_some {acc : List (String × String)} {v a b : String}
    (h : firstSplit ":::" v = some (a, b)) : parseVarStep acc v = insertVar acc a b := by
  unfold firstSplit at h
  cases hfs : firstSplitL (":::" : String).toList (v.toList.length + 1) v.toList with
  | none =>
    rw [hfs] at h
    cases h
  | some ab =>
    obtain ⟨al, bl⟩ := ab
    rw [hfs] at h
    have hab : al.asString = a ∧ bl.asString = b := by
      simp only [Option.map, Option.some.injEq, Prod.mk.injEq] at h
      exact h
    have hsplit : splitL (":::" : String).toList v.toList [] =
        al :: splitL (":::" : String).toList bl [] := by
      have := splitL_of_firstSplitL_some (":::" : String).toList (by decide) _ _ [] al bl hfs
      simpa using this
    unfold parseVarStep
    have hgs : goSplit ":::" v =
        al.asString :: (splitL (":::" : String).toList bl []).map List.asString := by
      unfold goSplit
      rw [if_neg (by decide : ¬(":::" : String) = ""), hsplit, List.map_cons]
    rw [hgs]
    cases hrest : (splitL (":::" : String).toList bl []) with
    | nil => exact absurd hrest (splitL_ne_nil _ _ _)
    | cons hd tl =>
      show insertVar acc al.asString
        (goJoin ":::" (hd.asString :: tl.map List.asString)) = insertVar acc a b
      have hval : goJoin ":::" (hd.asString :: tl.map List.asString) = b := by
        have h₁ : hd.asString :: tl.map List.asString = (hd :: tl).map List.asString := by
          rw [List.map_cons]
        rw [h₁, goJoin_map_asString, ← hrest, goJoinL_splitL _ (by decide) bl, hab.2]
      rw [hval, hab.1]

/-! ## The claims -/

/-- Claim C1, counterexample: the claim says that with filter `state-only` a
record whose config-state is unset appears in the output; on a record with
unset state the renderer's `state` filter drops it, so the output is empty. -/
theorem claim_C1_counterexample :
    renderText
      { onlyNodes := "state", withModule := "no", nodeState := false,
        style := "xpath", types := "no" }
      [{ zeroPath with Config := .TSUnset, XPath := "/a" }] = [] := rfl

/-- Claim C1 (amended): in text mode, with filter `state` exactly the records
whose state is ro appear; with filter `config` exactly the records whose
state is rw or unset appear; with filter `all` every record appears (unset
state is treated as config for filtering). -/
theorem claim_C1 (o : TextOpts) (r : Path) (rs : List Path) :
    (o.onlyNodes = "state" → ((renderTextLine o r).isSome ↔ r.Config = .TSFalse)) ∧
    (o.onlyNodes = "config" → ((renderTextLine o r).isSome ↔ r.Config ≠ .TSFalse)) ∧
    (o.onlyNodes = "all" → (renderTextLine o r).isSome) ∧
    (o.onlyNodes = "all" → (renderText o rs).length = rs.length) := by
  refine ⟨?_, ?_, ?_, ?_⟩
  · intro h
    cases hc : r.Config <;> simp [renderTextLine, renderTextFields, skipRecord, h, hc]
  · intro h
    cases hc : r.Config <;> simp [renderTextLine, renderTextFields, skipRecord, h, hc]
  · intro h
    simp [renderTextLine, renderTextFields, skipRecord, h]
  · intro h
    induction rs with
    | nil => rfl
    | cons r' rs' ih =>
      have hsome : (renderTextLine o r').isSome = true := by
        simp [renderTextLine, renderTextFields, skipRecord, h]
      unfold renderText at ih ⊢
      rw [List.filterMap_cons]
      cases hline : renderTextLine o r' with
      | none => rw [hline] at hsome; cases hsome
      | some s => simp [ih]

/-- Claim C1, witness: a read-only record passes the `state` filter. -/
theorem claim_C1_witness :
    (renderTextLine
      { onlyNodes := "state", withModule := "no", nodeState := false,
        style := "xpath", types := "no" }
      { zeroPath with Config := .TSFalse }).isSome ↔
      ({ zeroPath with Config := .TSFalse } : Path).Config = .TSFalse :=
  (claim_C1
    { onlyNodes := "state", withModule := "no", nodeState := false,
      style := "xpath", types := "no" }
    { zeroPath with Config := .TSFalse } []).1 rfl

/-- Claim C2, counterexample: for a union with members identity-ref(base Foo)
and enumeration(names A, B), the rendered type string is not
`{identityref->Foo enumeration"[A B]"}` as claimed: Go's `%+q` quotes each
enum name individually, giving `["A" "B"]`, and the bare type name precedes
the braces. -/
theorem claim_C2_counterexample :
    leafSType true
      { Name := "union", IdentityBaseName := none,
        Members :=
          [{ Name := "identityref", IdentityBaseName := some "Foo",
             YangTypeKind := .Yother, YangTypeEnumNames := [] },
           { Name := "enumeration", IdentityBaseName := none,
             YangTypeKind := .Yenum, YangTypeEnumNames := ["A", "B"] }] }
      { Kind := .Yunion, Path := "", EnumNames := [] } ≠
      "\x7bidentityref->Foo enumeration\"[A B]\"\x7d" := by decide

/-- Claim C2 (amended): for a Leaf whose resolved kind is union (and whose
own type has no identity base), the rendered type string is the bare type
name followed by the brace-wrapped, space-joined member renderings, where a
member renders as `identityref->BASE` if it has an identity base, else
`enumeration` followed by the `%+q` quoting of its names (each name
individually double-quoted, space-separated, in square brackets) if its kind
is enumeration, else its bare name; member order is preserved. -/
theorem claim_C2 (t : YType) (ty : YangType)
    (hk : ty.Kind = .Yunion) (hib : t.IdentityBaseName = none) :
    leafSType true t ty =
      t.Name ++ ("\x7b" ++ goJoin " " (t.Members.map specUnionMember) ++ "\x7d") := by
  unfold leafSType
  rw [hib, hk]
  simp only [typeColorSprint, if_true]
  have hmem : (fun (ut : UnionMemberType) =>
      match ut.IdentityBaseName with
      | some b => "identityref->" ++ b
      | none =>
        if ut.YangTypeKind = .Yenum then "enumeration" ++ goQuoteSlice ut.YangTypeEnumNames
        else ut.Name) = specUnionMember := by
    funext ut
    rfl
  simp [hmem]

/-- Claim C2, witness: the concrete union of the claim renders as
`union{identityref->Foo enumeration["A" "B"]}`. -/
theorem claim_C2_witness :
    leafSType true
      { Name := "union", IdentityBaseName := none,
        Members :=
          [{ Name := "identityref", IdentityBaseName := some "Foo",
             YangTypeKind := .Yother, YangTypeEnumNames := [] },
           { Name := "enumeration", IdentityBaseName := none,
             YangTypeKind := .Yenum, YangTypeEnumNames := ["A", "B"] }] }
      { Kind := .Yunion, Path := "", EnumNames := [] } =
      "union\x7bidentityref->Foo enumeration[\"A\" \"B\"]\x7d" := by
  rw [claim_C2
    { Name := "union", IdentityBaseName := none,
      Members :=
        [{ Name := "identityref", IdentityBaseName := some "Foo",
           YangTypeKind := .Yother, YangTypeEnumNames := [] },
         { Name := "enumeration", IdentityBaseName := none,
           YangTypeKind := .Yenum, YangTypeEnumNames := ["A", "B"] }] }
    { Kind := .Yunion, Path := "", EnumNames := [] } rfl rfl]
  decide

/-- Claim C3: for a List node with ordered key names `ks` (each key name
non-empty and space-free, `Key` being the space-joined key string), the
XPath segment appended is `/name[k1=*][k2=*]...` and the RESTCONF segment is
`/name=k1,k2,...`; with an empty key set the segments are `/name` and
`/name=` (a literal trailing `=`).  No record is produced at a List node.
Stated for colour-disabled output; colour only wraps the key fragments in
ANSI escapes. -/
theorem claim_C3 (n key : String) (ks : List String) (cfg : TriState) (ty : YangType) (p : Path)
    (hkey : key = goJoin " " ks)
    (hks : ∀ k ∈ ks, k ≠ "" ∧ ' ' ∉ k.toList) :
    (pathsStep n .List cfg key ty p true).1.XPath =
        p.XPath ++ "/" ++ n ++ String.join (ks.map (fun k => "[" ++ k ++ "=*]")) ∧
    (pathsStep n .List cfg key ty p true).1.RestConfPath =
        p.RestConfPath ++ "/" ++ n ++ "=" ++ goJoin "," ks ∧
    (pathsStep n .List cfg key ty p true).2 = [] := by
  subst hkey
  cases ks with
  | nil =>
    have hkey0 : goJoin " " ([] : List String) = "" := rfl
    rw [hkey0]
    refine ⟨?_, ?_, rfl⟩ <;> simp [pathsStep, String.join, goJoin]
  | cons k ks' =>
    have hkne : goJoin " " (k :: ks') ≠ "" := by
      intro hc
      have h1 : (goJoin " " (k :: ks')).toList = [] := by rw [hc]; rfl
      rw [toList_goJoin] at h1
      cases ks' with
      | nil => exact toList_ne_nil (hks k (List.mem_cons_self k [])).1 (by simpa using h1)
      | cons t ts =>
        rw [List.map_cons, goJoinL_cons_ne _ _ (by simp)] at h1
        simp at h1
    have hsplit := goSplit_goJoin_space (k :: ks') (fun x hx => (hks x hx).2) (by simp)
    refine ⟨?_, ?_, rfl⟩ <;>
      simp only [pathsStep, if_pos hkne, hsplit, keyColorSprint, if_true]

/-- Claim C3, witness: key names `id` and `index` yield the XPath segment
`/listname[id=*][index=*]` and the RESTCONF segment `/listname=id,index`. -/
theorem claim_C3_witness :
    (pathsStep "listname" .List .TSUnset "id index"
      { Kind := .Yother, Path := "", EnumNames := [] } zeroPath true).1.XPath =
        "/listname[id=*][index=*]" ∧
    (pathsStep "listname" .List .TSUnset "id index"
      { Kind := .Yother, Path := "", EnumNames := [] } zeroPath true).1.RestConfPath =
        "/listname=id,index" := by
  have h := claim_C3 "listname" "id index" ["id", "index"] .TSUnset
    { Kind := .Yother, Path := "", EnumNames := [] } zeroPath (by decide) (by decide)
  refine ⟨?_, ?_⟩
  · rw [h.1]; decide
  · rw [h.2.1]; decide

/-- Well-formedness `NodupKeys` holds for every childless entry. -/
theorem NodupKeys_nil (n : String) (nd : YNode) (cfg : TriState) (key : String) (ty : YangType) :
    NodupKeys (.mk n nd cfg key ty []) :=
  NodupKeys.mk List.nodup_nil (fun kv hkv => absurd hkv (List.not_mem_nil kv))

/-- Claim C4: for every schema tree (with the well-formed map directories a
Go map guarantees), the walker produces exactly one record per reachable
Leaf node: the length of the record list equals the number of reachable Leaf
nodes, and Module, Container, List and LeafList nodes never directly produce
a record. -/
theorem claim_C4 (e : Entry) (p : Path) (tc : Bool) (hnd : NodupKeys e) :
    (Paths e p tc).length = countLeaves e :=
  Paths_length e hnd p tc

/-- Claim C4, witness: a module with a leaf child and a childless container
child yields exactly one record. -/
theorem claim_C4_witness :
    (Paths
      (Entry.mk "m" .Module .TSUnset "" { Kind := .Yother, Path := "", EnumNames := [] }
        [("a", Entry.mk "a" (.Leaf { Name := "string", IdentityBaseName := none, Members := [] })
            .TSUnset "" { Kind := .Yother, Path := "", EnumNames := [] } []),
         ("b", Entry.mk "b" .Container .TSUnset ""
            { Kind := .Yother, Path := "", EnumNames := [] } [])])
      zeroPath false).length =
      countLeaves
        (Entry.mk "m" .Module .TSUnset "" { Kind := .Yother, Path := "", EnumNames := [] }
          [("a", Entry.mk "a" (.Leaf { Name := "string", IdentityBaseName := none, Members := [] })
              .TSUnset "" { Kind := .Yother, Path := "", EnumNames := [] } []),
           ("b", Entry.mk "b" .Container .TSUnset ""
              { Kind := .Yother, Path := "", EnumNames := [] } [])]) := by
  apply claim_C4
  refine NodupKeys.mk (by decide) ?_
  intro kv hkv
  rcases List.mem_cons.mp hkv with h | h
  · rw [h]
    exact NodupKeys_nil _ _ _ _ _
  · rcases List.mem_cons.mp h with h' | h'
    · rw [h']
      exact NodupKeys_nil _ _ _ _ _
    · exact absurd h' (List.not_mem_nil kv)

/-- Claim C5: the walker's output is invariant under the storage order of the
child directories: two well-formed trees with the same canonical form (equal
up to reordering of every `Dir` list) produce the same record list; at every
node the child-visiting sequence is the sorted key list, so the traversal is
deterministic and lexicographic by child name. -/
theorem claim_C5 (e₁ e₂ : Entry) (p : Path) (tc : Bool)
    (h₁ : NodupKeys e₁) (h₂ : NodupKeys e₂) (hc : canon e₁ = canon e₂) :
    Paths e₁ p tc = Paths e₂ p tc ∧
      List.Sorted (fun a b => strLe a b = true) (sortStrings (e₁.Dir.map Prod.fst)) := by
  constructor
  · rw [← Paths_canon e₁ h₁ p tc, hc, Paths_canon e₂ h₂ p tc]
  · exact sortStrings_sorted _

/-- Claim C5, witness: the same two children stored in the two possible
orders give the same record list. -/
theorem claim_C5_witness :
    Paths
      (Entry.mk "m" .Module .TSUnset "" { Kind := .Yother, Path := "", EnumNames := [] }
        [("b", Entry.mk "b" .Container .TSUnset ""
            { Kind := .Yother, Path := "", EnumNames := [] } []),
         ("a", Entry.mk "a" .Container .TSUnset ""
            { Kind := .Yother, Path := "", EnumNames := [] } [])])
      zeroPath false =
    Paths
      (Entry.mk "m" .Module .TSUnset "" { Kind := .Yother, Path := "", EnumNames := [] }
        [("a", Entry.mk "a" .Container .TSUnset ""
            { Kind := .Yother, Path := "", EnumNames := [] } []),
         ("b", Entry.mk "b" .Container .TSUnset ""
            { Kind := .Yother, Path := "", EnumNames := [] } [])])
      zeroPath false := by
  have hnk₁ : NodupKeys
      (Entry.mk "m" .Module .TSUnset "" { Kind := .Yother, Path := "", EnumNames := [] }
        [("b", Entry.mk "b" .Container .TSUnset ""
            { Kind := .Yother, Path := "", EnumNames := [] } []),
         ("a", Entry.mk "a" .Container .TSUnset ""
            { Kind := .Yother, Path := "", EnumNames := [] } [])]) := by
    refine NodupKeys.mk (by decide) ?_
    intro kv hkv
    rcases List.mem_cons.mp hkv with h | h
    · rw [h]; exact NodupKeys_nil _ _ _ _ _
    · rcases List.mem_cons.mp h with h' | h'
      · rw [h']; exact NodupKeys_nil _ _ _ _ _
      · exact absurd h' (List.not_mem_nil kv)
  have hnk₂ : NodupKeys
      (Entry.mk "m" .Module .TSUnset "" { Kind := .Yother, Path := "", EnumNames := [] }
        [("a", Entry.mk "a" .Container .TSUnset ""
            { Kind := .Yother, Path := "", EnumNames := [] } []),
         ("b", Entry.mk "b" .Container .TSUnset ""
            { Kind := .Yother, Path := "", EnumNames := [] } [])]) := by
    refine NodupKeys.mk (by decide) ?_
    intro kv hkv
    rcases List.mem_cons.mp hkv with h | h
    · rw [h]; exact NodupKeys_nil _ _ _ _ _
    · rcases List.mem_cons.mp h with h' | h'
      · rw [h']; exact NodupKeys_nil _ _ _ _ _
      · exact absurd h' (List.not_mem_nil kv)
  exact (claim_C5 _ _ zeroPath false hnk₁ hnk₂ (by
    simp only [canon_mk, canonD]
    simp [sortPairs, insertPair, (by decide : strLe "b" "a" = false),
      (by decide : strLe "a" "b" = true)])).1

/-- Claim C6: the accumulator is passed down by value, so the records of one
child subtree are a function of that subtree and the updated accumulator
alone: replacing the subtree stored under one child name changes neither the
records contributed by the node itself nor those of any sibling — the output
always decomposes as fixed `before`/`after` segments around the replaced
child's own walk. -/
theorem claim_C6 (n : String) (nd : YNode) (cfg : TriState) (key : String) (ty : YangType)
    (d₁ d₂ : List (String × Entry)) (x : String) (p : Path) (tc : Bool)
    (hx : x ∉ (d₁ ++ d₂).map Prod.fst) :
    ∃ before after : List Path, ∀ a : Entry,
      Paths (.mk n nd cfg key ty (d₁ ++ (x, a) :: d₂)) p tc =
        before ++ Paths a (pathsStep n nd cfg key ty p (!tc)).1 tc ++ after := by
  obtain ⟨s₁, s₂, hchild⟩ := childrenOf_middle hx
  refine ⟨(pathsStep n nd cfg key ty p (!tc)).2 ++
      (s₁.filterMap (fun k => lookupD k (d₁ ++ d₂))).flatMap
        (fun c => Paths c (pathsStep n nd cfg key ty p (!tc)).1 tc),
    (s₂.filterMap (fun k => lookupD k (d₁ ++ d₂))).flatMap
      (fun c => Paths c (pathsStep n nd cfg key ty p (!tc)).1 tc), ?_⟩
  intro a
  rw [Paths_mk, hchild a, List.flatMap_append, List.flatMap_cons]
  simp [List.append_assoc]

/-- Claim C6, witness: with siblings `a` and `c` around the child name `b`,
the decomposition applies. -/
theorem claim_C6_witness :
    ∃ before after : List Path, ∀ a : Entry,
      Paths (.mk "m" .Module .TSUnset ""
          { Kind := .Yother, Path := "", EnumNames := [] }
          ([("a", Entry.mk "a" .Container .TSUnset ""
              { Kind := .Yother, Path := "", EnumNames := [] } [])] ++ ("b", a) ::
           [("c", Entry.mk "c" .Container .TSUnset ""
              { Kind := .Yother, Path := "", EnumNames := [] } [])]))
        zeroPath false =
        before ++ Paths a
          (pathsStep "m" .Module .TSUnset ""
            { Kind := .Yother, Path := "", EnumNames := [] } zeroPath (!false)).1 false ++
          after :=
  claim_C6 "m" .Module .TSUnset "" { Kind := .Yother, Path := "", EnumNames := [] }
    [("a", Entry.mk "a" .Container .TSUnset ""
        { Kind := .Yother, Path := "", EnumNames := [] } [])]
    [("c", Entry.mk "c" .Container .TSUnset ""
        { Kind := .Yother, Path := "", EnumNames := [] } [])]
    "b" zeroPath false (by decide)

/-- Claim C7: config-state is inherited top-down: the config of every record
equals the fold of the inheritance step over its root-to-leaf entry chain —
an unset node keeps the inherited state, a Container/List/LeafList/Leaf node
with a declared state overwrites it for its subtree, so each record carries
the nearest explicitly declared ancestor-or-self state (or the initial state
of the accumulator, unset at the root call, when none was declared). -/
theorem claim_C7 (e : Entry) (p : Path) (tc : Bool) :
    (Paths e p tc).map Path.Config = (leafChains e).map (effConfig p.Config) :=
  Paths_map_Config e p tc

/-- Claim C8: a template-variable argument containing the `:::` separator
parses to the text before the first separator as key and everything after it
(all remaining segments re-joined with `:::`) as value; an argument without
the separator is non-fatal: it is excluded from the context and the
remaining arguments are still processed. -/
theorem claim_C8 (vs₁ vs₂ : List String) (v : String) :
    (firstSplit ":::" v = none →
      parseTemplateVars (vs₁ ++ v :: vs₂) = parseTemplateVars (vs₁ ++ vs₂)) ∧
    (∀ a b : String, firstSplit ":::" v = some (a, b) →
      parseTemplateVars (vs₁ ++ [v]) = insertVar (parseTemplateVars vs₁) a b) := by
  constructor
  · intro hnone
    unfold parseTemplateVars
    rw [List.foldl_append, List.foldl_append, List.foldl_cons, parseVarStep_none hnone]
  · intro a b hsome
    unfold parseTemplateVars
    rw [List.foldl_append, List.foldl_cons, parseVarStep_some hsome]
    rfl

/-- Claim C8, witness: `foo:::bar:::baz` maps the key `foo` to the value
`bar:::baz`. -/
theorem claim_C8_witness :
    parseTemplateVars ([] ++ ["foo:::bar:::baz"]) =
      insertVar (parseTemplateVars []) "foo" "bar:::baz" :=
  (claim_C8 [] [] "foo:::bar:::baz").2 "foo" "bar:::baz" (by decide)

/-- Claim C9: in text mode with the node-state indicator enabled, the
indicator field of a rendered record is `[ro]` exactly when the record's
config-state is explicitly false, and `[rw]` for every other state — in
particular an unset state is printed as `[rw]`. -/
theorem claim_C9 (o : TextOpts) (p : Path) (hns : o.nodeState = true) :
    ∀ fs, renderTextFields o p = some fs →
      (p.Config = .TSFalse → "[ro]" ∈ fs) ∧ (p.Config ≠ .TSFalse → "[rw]" ∈ fs) := by
  intro fs hfs
  unfold renderTextFields at hfs
  by_cases hs : skipRecord o.onlyNodes p = true
  · rw [if_pos hs] at hfs
    cases hfs
  · rw [if_neg hs] at hfs
    injection hfs with hfs'
    constructor
    · intro hc
      rw [← hfs']
      simp [hns, hc]
    · intro hc
      rw [← hfs']
      simp [hns, if_neg hc]

/-- Claim C9, witness: the zero record (unset state) is rendered with the
`[rw]` indicator among its fields. -/
theorem claim_C9_witness :
    (zeroPath.Config = .TSFalse → "[ro]" ∈ ["[rw]", "", ""]) ∧
    (zeroPath.Config ≠ .TSFalse → "[rw]" ∈ ["[rw]", "", ""]) :=
  claim_C9
    { onlyNodes := "all", withModule := "no", nodeState := true,
      style := "xpath", types := "detailed" }
    zeroPath rfl ["[rw]", "", ""] rfl

/-- Claim C10: the HTML renderer's template selection depends on its
template-path argument `t` only through whether `t` is empty: for non-empty
`t` the file read is the one named by the process-wide configuration value
`path-template`, not by `t` itself, and for empty `t` the built-in default
template is used. -/
theorem claim_C10 (t₁ t₂ : String) (rf : String → Except String String) (cfg : String)
    (hsame : (t₁ = "") ↔ (t₂ = "")) :
    resolveTemplateBody t₁ rf cfg = resolveTemplateBody t₂ rf cfg ∧
    (t₁ ≠ "" → resolveTemplateBody t₁ rf cfg = rf cfg) ∧
    (t₁ = "" → resolveTemplateBody t₁ rf cfg = Except.ok defTemplate) := by
  by_cases h : t₁ = ""
  · have h₂ : t₂ = "" := hsame.mp h
    refine ⟨?_, ?_, ?_⟩ <;> simp [resolveTemplateBody, h, h₂]
  · have h₂ : t₂ ≠ "" := fun hc => h (hsame.mpr hc)
    refine ⟨?_, ?_, ?_⟩ <;> simp [resolveTemplateBody, h, h₂]

/-- Claim C10, witness: two distinct non-empty template paths read the same
configured file; the read result, not `t`, is the template body. -/
theorem claim_C10_witness :
    resolveTemplateBody "x.tmpl" (fun s => Except.ok ("file:" ++ s)) "cfg.tmpl" =
      resolveTemplateBody "y.tmpl" (fun s => Except.ok ("file:" ++ s)) "cfg.tmpl" ∧
    ("x.tmpl" ≠ "" →
      resolveTemplateBody "x.tmpl" (fun s => Except.ok ("file:" ++ s)) "cfg.tmpl" =
        (fun s => Except.ok ("file:" ++ s)) "cfg.tmpl") ∧
    ("x.tmpl" = "" →
      resolveTemplateBody "x.tmpl" (fun s => Except.ok ("file:" ++ s)) "cfg.tmpl" =
        Except.ok defTemplate) :=
  claim_C10 "x.tmpl" "y.tmpl" (fun s => Except.ok ("file:" ++ s)) "cfg.tmpl" (by decide)

end Yangpath
